import Mathlib

/- Shallow embedding of the two core text algorithms of the repository
   RAG_OpenAI_Pinecone: the boundary-aware text chunker
   (source/utils.py, chunk_text) and the verbatim extraction engine
   (source/verbatim_extractor.py, class VerbatimExtractor).

   Python strings are modelled as List Char; Python ints that are list
   indices or lengths are modelled as Nat where the source keeps them
   non-negative, and as Int where the source uses the -1 sentinel of
   str.rfind.  Relevance scores (Python floats, used only for comparison
   and copying) are modelled as rationals. -/

namespace RAG

/-! ### Python string primitives -/

/-- Characters stripped by Python str.strip() and matched by the regex
class backslash-s: the Unicode whitespace code points. -/
def pyIsSpace (c : Char) : Bool :=
  let n := c.toNat
  (9 ≤ n && n ≤ 13) || (28 ≤ n && n ≤ 31) || n = 32 || n = 133 || n = 160 ||
  n = 5760 || (8192 ≤ n && n ≤ 8202) || n = 8232 || n = 8233 || n = 8239 ||
  n = 8287 || n = 12288

/-- Python slice t[s:e] for non-negative bounds (clamped, empty when e ≤ s). -/
def slice (t : List Char) (s e : Nat) : List Char := (t.take e).drop s

/-- Python str.strip(): drop leading and trailing whitespace. -/
def pyStrip (l : List Char) : List Char :=
  ((l.dropWhile pyIsSpace).reverse.dropWhile pyIsSpace).reverse

/-- The string sub occurs in t starting at index i (fully inside t). -/
def occursAt (sub t : List Char) (i : Nat) : Bool :=
  decide (i + sub.length ≤ t.length) && decide (slice t i (i + sub.length) = sub)

/-- Scan i, i-1, ..., down to lo for the largest index where sub occurs;
-1 when there is none (helper for pyRfind). -/
def rfindFrom (sub t : List Char) (lo : Nat) : Nat → Int
  | 0 => if decide (lo = 0) && occursAt sub t 0 then 0 else -1
  | i + 1 =>
    if decide (lo ≤ i + 1) && occursAt sub t (i + 1) then ((i : Int) + 1)
    else rfindFrom sub t lo i

/-- Python text.rfind(sub, s, e): highest index of an occurrence of sub
inside the window [s, min e (len text)), or -1. -/
def pyRfind (sub t : List Char) (s e : Nat) : Int :=
  let e' := min e t.length
  if sub.length ≤ e' then rfindFrom sub t s (e' - sub.length) else -1

/-! ### chunk_text (source/utils.py, lines 50-95) -/

/-- The boundary_chars list of chunk_text. -/
def sentencePatterns : List (List Char) :=
  [['.', ' '], ['.', '\n'], ['!', ' '], ['!', '\n'], ['?', ' '], ['?', '\n']]

/-- One step of the best_boundary accumulation: if boundary_pos > best_boundary
then best_boundary = boundary_pos + len(boundary). -/
def boundaryStep (t : List Char) (s e : Nat) (best : Int) (b : List Char) : Int :=
  let p := pyRfind b t s e
  if best < p then p + b.length else best

/-- The six-pattern loop of chunk_text computing best_boundary (starting
from -1). -/
def sentenceBoundary (t : List Char) (s e : Nat) : Int :=
  sentencePatterns.foldl (boundaryStep t s e) (-1)

/-- The complete natural-boundary search of chunk_text: sentence patterns,
then the paragraph-break fallback, then the single-newline fallback, else
the hard cut e0. -/
def snapEnd (t : List Char) (s e0 : Nat) : Nat :=
  let b1 := sentenceBoundary t s e0
  let b2 := if b1 = -1 then
      (let p := pyRfind ['\n', '\n'] t s e0
       if p = -1 then (-1 : Int) else p + 2)
    else b1
  let b3 := if b2 = -1 then
      (let p := pyRfind ['\n'] t s e0
       if p = -1 then (-1 : Int) else p + 1)
    else b2
  if b3 = -1 then e0 else b3.toNat

/-- The carving loop of chunk_text, recorded as the (start, end) span of
every iteration of the while loop; end is the value after boundary
snapping, exactly the bounds of the slice text[start:end] the iteration
takes.  The cursor advances by start = max (start+1) (end - overlap),
which grows by at least one per iteration, so fuel t.length + 1 is never
exhausted when starting from cursor 0. -/
def chunkLoop (t : List Char) (cs ov : Nat) : Nat → Nat → List (Nat × Nat)
  | 0, _ => []
  | fuel + 1, start =>
    if start < t.length then
      let e0 := start + cs
      let e := if e0 < t.length then snapEnd t start e0 else e0
      (start, e) :: chunkLoop t cs ov fuel (max (start + 1) (e - ov))
    else []

/-- The (start, end) spans of all iterations of the while loop of
chunk_text on text t. -/
def chunkSpans (t : List Char) (cs ov : Nat) : List (Nat × Nat) :=
  chunkLoop t cs ov (t.length + 1) 0

/-- chunk_text itself: the short-text branch returns [text]; otherwise each
loop iteration emits text[start:end].strip() unless that is empty. -/
def chunk_text (t : List Char) (cs ov : Nat) : List (List Char) :=
  if t.length ≤ cs then [t]
  else (chunkSpans t cs ov).filterMap (fun se =>
    let c := pyStrip (slice t se.1 se.2)
    if c = [] then none else some c)

/-! ### Verbatim extractor (source/verbatim_extractor.py)

The speaker_pattern regex
  ([^,\[]+(?:,\s*[^,\[]+)*),?\s*\[([^\]]+)\]:\s*(.*?)(?=\n[A-Z]|\n$|\Z)
compiled with MULTILINE and DOTALL is embedded as an explicit backtracking
matcher: every quantifier produces its candidate end positions in the
engine's preference order (greedy: longest first; lazy: shortest first;
the optional comma: present first) and the first full parse in that
depth-first order is the match, exactly as Python's engine finds it. -/

/-- Length of the maximal run of characters satisfying p starting at i. -/
def runLen (p : Char → Bool) (t : List Char) (i : Nat) : Nat :=
  ((t.drop i).takeWhile p).length

/-- Character class of the speaker-identifier tokens: anything but a comma
or an opening bracket. -/
def nonCB (c : Char) : Bool := !(c = ',' || c = '[')

/-- Candidate end positions of a greedy plus over class p starting at i,
longest first; empty when the class does not match at i at all. -/
def plusCands (p : Char → Bool) (t : List Char) (i : Nat) : List Nat :=
  let r := runLen p t i
  (List.range r).map (fun k => i + r - k)

/-- Candidate end positions of a greedy whitespace star starting at i,
longest first (zero repetitions last). -/
def wsCands (t : List Char) (i : Nat) : List Nat :=
  let r := runLen pyIsSpace t i
  (List.range (r + 1)).map (fun k => i + r - k)

/-- Candidate end positions of the optional comma, consuming it first. -/
def commaOpt (t : List Char) (i : Nat) : List Nat :=
  if decide (t[i]? = some ',') then [i + 1, i] else [i]

/-- Candidate end positions of the greedy star (?:,\s*[^,\[]+)* starting
at i, more iterations preferred.  Each iteration consumes at least the
comma, so fuel t.length + 1 is never exhausted. -/
def starCands (t : List Char) : Nat → Nat → List Nat
  | 0, i => [i]
  | fuel + 1, i =>
    (if decide (t[i]? = some ',') then
       (wsCands t (i + 1)).flatMap (fun j =>
         (plusCands nonCB t j).flatMap (fun k => starCands t fuel k))
     else []) ++ [i]

/-- The lookahead (?=\n[A-Z]|\n$|\Z) at position q, with MULTILINE making
the dollar match at end of text or before a newline. -/
def lookaheadOk (t : List Char) (q : Nat) : Bool :=
  (decide (t[q]? = some '\n') &&
    (t[q + 1]?.any (fun c => decide ('A' ≤ c) && decide (c ≤ 'Z')))) ||
  (decide (t[q]? = some '\n') &&
    (decide (q + 1 = t.length) || decide (t[q + 1]? = some '\n'))) ||
  decide (q = t.length)

/-- A match of speaker_pattern: the half-open group slices
group 1 [g1s, g1e) speaker info, group 2 [g2s, g2e) timestamp,
group 3 [g3s, g3e) quote content; the whole match ends at g3e. -/
structure SpeakerMatch where
  g1s : Nat
  g1e : Nat
  g2s : Nat
  g2e : Nat
  g3s : Nat
  g3e : Nat
deriving Repr, DecidableEq

/-- Attempt to match speaker_pattern at position i of t, trying candidate
splits in the engine's preference order and returning the first success. -/
def matchSpeakerAt (t : List Char) (i : Nat) : Option SpeakerMatch :=
  (plusCands nonCB t i).findSome? fun p1 =>
  (starCands t (t.length + 1) p1).findSome? fun g1e =>
  (commaOpt t g1e).findSome? fun p3 =>
  (wsCands t p3).findSome? fun p4 =>
  if decide (t[p4]? = some '[') then
    (plusCands (fun c => !(c = ']')) t (p4 + 1)).findSome? fun g2e =>
    if decide (t[g2e]? = some ']') && decide (t[g2e + 1]? = some ':') then
      (wsCands t (g2e + 2)).findSome? fun g3s =>
      ((List.range (t.length + 1 - g3s)).map (fun k => g3s + k)).findSome? fun q =>
        if lookaheadOk t q then some ⟨i, g1e, p4 + 1, g2e, g3s, q⟩ else none
    else none
  else none

/-- The scan of speaker_pattern.findall: try each position left to right,
continue after the end of every (necessarily non-empty) match.  The
position strictly increases at every step, so fuel t.length + 2 is never
exhausted when starting from 0. -/
def findAllSpeaker (t : List Char) : Nat → Nat → List SpeakerMatch
  | 0, _ => []
  | fuel + 1, i =>
    if i ≤ t.length then
      match matchSpeakerAt t i with
      | some m => m :: findAllSpeaker t fuel m.g3e
      | none => findAllSpeaker t fuel (i + 1)
    else []

/-- speaker_pattern.findall(text). -/
def findall (t : List Char) : List SpeakerMatch :=
  findAllSpeaker t (t.length + 2) 0

/-! #### Speaker parsing and quote cleaning -/

/-- Lowercasing a Python string (the source only lowercases ASCII names). -/
def pyLower (l : List Char) : List Char := l.map Char.toLower

/-- Uppercasing a Python string. -/
def pyUpper (l : List Char) : List Char := l.map Char.toUpper

/-- Python substring test: sub in s. -/
def pyContains (sub s : List Char) : Bool := decide (sub <:+: s)

/-- The moderator_patterns list of the extractor. -/
def moderatorPatterns : List (List Char) :=
  ["Moderator".data, "MODERATOR".data, "Mod".data, "MOD".data]

/-- Modelled speaker record (class SpeakerInfo). -/
structure SpeakerInfo where
  name : List Char
  demographics : List Char
  location : List Char
  raw_identifier : List Char
deriving Repr, DecidableEq

/-- The demographics_pattern regex ([^,]+),\s*([MF]),\s*(\d+-\d+),\s*([A-Z]+)
applied with re.match (anchored prefix match).  Every quantifier here is
followed by a literal its class excludes, so the greedy maximal-run parse
is the only possible one and no backtracking arises.  Returns the captured
name, the gender character, the age-range capture and the location. -/
def demoMatch (r : List Char) : Option (List Char × Char × List Char × List Char) :=
  let name := r.takeWhile (fun c => !(c = ','))
  if name = [] then none else
  match r.drop name.length with
  | ',' :: r1 =>
    let r2 := r1.dropWhile pyIsSpace
    match r2 with
    | g :: r3 =>
      if g = 'M' || g = 'F' then
        match r3 with
        | ',' :: r4 =>
          let r5 := r4.dropWhile pyIsSpace
          let d1 := r5.takeWhile Char.isDigit
          if d1 = [] then none else
          match r5.drop d1.length with
          | '-' :: r6 =>
            let d2 := r6.takeWhile Char.isDigit
            if d2 = [] then none else
            match r6.drop d2.length with
            | ',' :: r7 =>
              let r8 := r7.dropWhile pyIsSpace
              let loc := r8.takeWhile (fun c => decide ('A' ≤ c) && decide (c ≤ 'Z'))
              if loc = [] then none
              else some (name, g, d1 ++ '-' :: d2, loc)
            | _ => none
          | _ => none
        | _ => none
      else none
    | [] => none
  | _ => none

/-- VerbatimExtractor._parse_speaker_info (the source can never return
None: all three branches build a SpeakerInfo). -/
def parseSpeakerInfo (raw : List Char) : SpeakerInfo :=
  match demoMatch raw with
  | some (name, g, age, loc) => ⟨pyStrip name, g :: ',' :: ' ' :: age, loc, raw⟩
  | none =>
    if moderatorPatterns.any (fun m => pyContains m raw) then
      ⟨"Moderator".data, [], [], raw⟩
    else ⟨raw, [], [], raw⟩

/-- VerbatimExtractor._is_moderator. -/
def isModerator (name : List Char) : Bool :=
  moderatorPatterns.any (fun m => pyContains (pyLower m) (pyLower name))

/-- VerbatimExtractor._matches_participant_filter. -/
def matchesParticipantFilter (info : SpeakerInfo) (filt : List Char) : Bool :=
  ((filt.splitOn ',').map pyStrip).any (fun part =>
    pyContains (pyUpper part) (pyUpper info.demographics) ||
    pyContains (pyUpper part) (pyUpper info.location))

/-- Collapse every whitespace run to a single space:
re.sub(r backslash-s-plus, one space, l); the flag records whether the
previous character was whitespace already replaced. -/
def collapseWsAux : Bool → List Char → List Char
  | _, [] => []
  | prevWs, c :: rest =>
    if pyIsSpace c then
      if prevWs then collapseWsAux true rest
      else ' ' :: collapseWsAux true rest
    else c :: collapseWsAux false rest

/-- re.sub(r backslash-s-plus, one space, l). -/
def collapseWs (l : List Char) : List Char := collapseWsAux false l

/-- Word characters for the regex word boundary (the source text is ASCII;
the underscore counts as a word character). -/
def isWordChar (c : Char) : Bool := c.isAlpha || c.isDigit || c = '_'

/-- The filler tokens of the speech-artifact pattern, in alternation
order: um|uh|like|you know. -/
def artifacts : List (List Char) := ["um".data, "uh".data, "like".data, "you know".data]

/-- Word boundary holds before position i of a match whose first character
is a word character: start of string or a preceding non-word character. -/
def boundaryBefore (t : List Char) (i : Nat) : Bool :=
  match i with
  | 0 => true
  | j + 1 => !(t[j]?.any isWordChar)

/-- Word boundary holds after position j of a match whose last character
is a word character: end of string or a following non-word character. -/
def boundaryAfter (t : List Char) (j : Nat) : Bool :=
  decide (j = t.length) || !(t[j]?.any isWordChar)

/-- Try the artifact alternation at position i (case-insensitively, inside
word boundaries); returns the end of the leftmost alternative that fits. -/
def artMatchAt (t : List Char) (i : Nat) : Option Nat :=
  if boundaryBefore t i then
    artifacts.findSome? fun a =>
      if decide (i + a.length ≤ t.length) &&
         decide ((slice t i (i + a.length)).map Char.toLower = a) &&
         boundaryAfter t (i + a.length)
      then some (i + a.length) else none
  else none

/-- The substitution scan of re.sub for the artifact pattern: left to
right, every non-overlapping match deleted.  Every step advances the
position, so fuel t.length + 1 is never exhausted when starting from 0. -/
def removeArtFrom (t : List Char) : Nat → Nat → List Char
  | 0, _ => []
  | fuel + 1, i =>
    if i < t.length then
      match artMatchAt t i with
      | some j => removeArtFrom t fuel j
      | none => t.getD i ' ' :: removeArtFrom t fuel (i + 1)
    else []

/-- re.sub of the artifact pattern with the empty replacement. -/
def removeArt (t : List Char) : List Char := removeArtFrom t (t.length + 1) 0

/-- re.sub(r backslash-dot-dollar, empty, l) without MULTILINE: the dollar
matches at the end of the string or before one final newline, so exactly
one trailing period (possibly before a final newline) is removed. -/
def dropTrailingDotPy (l : List Char) : List Char :=
  match l.reverse with
  | '.' :: r => r.reverse
  | '\n' :: '.' :: r => ('\n' :: r).reverse
  | _ => l

/-- VerbatimExtractor._clean_quote. -/
def cleanQuote (q : List Char) : List Char :=
  let c1 := pyStrip (collapseWs q)
  let c2 := removeArt c1
  let c3 := dropTrailingDotPy c2
  pyStrip (collapseWs c3)

/-- Python str.split() with no separator: whitespace-delimited tokens,
empty tokens dropped (cur accumulates the current token reversed). -/
def pySplitWsAux : List Char → List Char → List (List Char)
  | cur, [] => if cur = [] then [] else [cur.reverse]
  | cur, c :: rest =>
    if pyIsSpace c then
      (if cur = [] then pySplitWsAux [] rest else cur.reverse :: pySplitWsAux [] rest)
    else pySplitWsAux (c :: cur) rest

/-- Python cleaned_quote.split(). -/
def pySplitWs (l : List Char) : List (List Char) := pySplitWsAux [] l

/-! #### Document processing and extraction -/

/-- A retrieved document as consumed by _extract_from_document: its text
and its relevance score. -/
structure Doc where
  text : List Char
  score : ℚ
deriving Repr, DecidableEq

/-- Modelled quotation record (class Verbatim). -/
structure Verbatim where
  quote : List Char
  speaker : SpeakerInfo
  relevance_score : ℚ
  source_chunk : List Char
  timestamp : List Char
  cleaned_quote : List Char
  word_count : Nat
deriving Repr, DecidableEq

/-- The body of the per-match loop of _extract_from_document: parse the
speaker, skip moderators when asked, clean the quote, apply the length
filter, apply the participant filter (a filter equal to the empty string
is falsy in Python and disables filtering), and build the Verbatim. -/
def processMatch (t : List Char) (score : ℚ) (minLen maxLen : Nat)
    (excludeModerator : Bool) (filt : Option (List Char)) (m : SpeakerMatch) :
    Option Verbatim :=
  let speakerInfo := parseSpeakerInfo (pyStrip (slice t m.g1s m.g1e))
  if excludeModerator && isModerator speakerInfo.name then none
  else
    let cleaned := cleanQuote (pyStrip (slice t m.g3s m.g3e))
    if cleaned.length < minLen || maxLen < cleaned.length then none
    else if (match filt with
             | some f => !decide (f = []) && !matchesParticipantFilter speakerInfo f
             | none => false) then none
    else some ⟨pyStrip (slice t m.g3s m.g3e), speakerInfo, score, t,
               pyStrip (slice t m.g2s m.g2e), cleaned, (pySplitWs cleaned).length⟩

/-- VerbatimExtractor._extract_from_document (the include_context
parameter is accepted by the source but never used). -/
def extractFromDocument (d : Doc) (minLen maxLen : Nat) (excl : Bool)
    (filt : Option (List Char)) : List Verbatim :=
  (findall d.text).filterMap (processMatch d.text d.score minLen maxLen excl filt)

/-- The sort key ordering of extract_verbatims: descending relevance.
Python's list.sort(key=score, reverse=True) is stable, so its output is
the unique stable descending arrangement, which insertion sort under this
relation computes. -/
def scoreGE (a b : Verbatim) : Prop := b.relevance_score ≤ a.relevance_score

instance : DecidableRel scoreGE := fun a b =>
  inferInstanceAs (Decidable (b.relevance_score ≤ a.relevance_score))

instance : IsTotal Verbatim scoreGE :=
  ⟨fun a b => le_total b.relevance_score a.relevance_score⟩

instance : IsTrans Verbatim scoreGE :=
  ⟨fun _ _ _ h1 h2 => le_trans h2 h1⟩

/-- The concatenation step of extract_verbatims: per-document extraction
in document order. -/
def allVerbatims (docs : List Doc) (minLen maxLen : Nat) (excl : Bool)
    (filt : Option (List Char)) : List Verbatim :=
  docs.flatMap (fun d => extractFromDocument d minLen maxLen excl filt)

/-- VerbatimExtractor.extract_verbatims: per-document extraction followed
by the stable descending sort on relevance_score (the query, format_style
and include_context parameters do not influence the returned list). -/
def extract_verbatims (docs : List Doc) (minLen maxLen : Nat) (excl : Bool)
    (filt : Option (List Char)) : List Verbatim :=
  List.insertionSort scoreGE (allVerbatims docs minLen maxLen excl filt)

/-- The predicate "carries relevance score c", used to state sort
stability. -/
def scoreIs (c : ℚ) (v : Verbatim) : Bool := decide (v.relevance_score = c)

/-! ### Specification-side definitions and concrete example data -/

/-- Modelled from the spec: the position of the right-most occurrence of
any of the six sentence-terminator patterns in the window, -1 when there
is none.  This is the boundary the spec says each iteration snaps to; it
is to be compared with the boundary the code's fold actually computes. -/
def specRightmostBoundary (t : List Char) (s e : Nat) : Int :=
  sentencePatterns.foldl (fun acc b => max acc (pyRfind b t s e)) (-1)

/-- The passage text of the spec's verbatim example, exactly as written
there (no bracketed timestamp). -/
def janeNoBracketText : List Char :=
  "Jane, F, 25-34, NYC: I really love this product a lot actually.\n".data

/-- The spec's verbatim example passage amended with a bracketed
timestamp, which speaker_pattern requires. -/
def janeText : List Char :=
  "Jane, F, 25-34, NYC [00:01]: I really love this product a lot actually.\n".data

/-- The single Verbatim the extractor produces from janeText at score s. -/
def janeVerbatim (s : ℚ) : Verbatim :=
  ⟨"I really love this product a lot actually.".data,
   ⟨"Jane".data, "F, 25-34".data, "NYC".data, "Jane, F, 25-34, NYC".data⟩,
   s, janeText, "00:01".data,
   "I really love this product a lot actually".data, 8⟩

/-! ## Theorems

First a characterization of the embedded Python rfind, then the claims
about chunk_text, then the claims about the verbatim extractor. -/

/-- rfindFrom returns -1 exactly when no occurrence lies in [lo, i], and
otherwise the largest occurrence position in [lo, i]. -/
theorem rfindFrom_spec (sub t : List Char) (lo : Nat) : ∀ i,
    (rfindFrom sub t lo i = -1 ∧ ∀ j, lo ≤ j → j ≤ i → occursAt sub t j = false)
  ∨ (∃ k : Nat, rfindFrom sub t lo i = (k : Int) ∧ lo ≤ k ∧ k ≤ i ∧
      occursAt sub t k = true ∧
      ∀ j, lo ≤ j → j ≤ i → occursAt sub t j = true → j ≤ k) := by
  intro i
  induction i with
  | zero =>
    by_cases hlo : lo = 0
    · by_cases hocc : occursAt sub t 0 = true
      · right
        exact ⟨0, by simp [rfindFrom, hlo, hocc], by omega, le_refl 0, hocc,
          fun j _ hj _ => hj⟩
      · left
        refine ⟨by simp [rfindFrom, hocc], fun j _ hj => ?_⟩
        interval_cases j
        exact Bool.not_eq_true _ ▸ hocc
    · left
      refine ⟨by simp [rfindFrom, hlo], fun j hj hj0 => ?_⟩
      omega
  | succ n ih =>
    by_cases hc : lo ≤ n + 1 ∧ occursAt sub t (n + 1) = true
    · right
      refine ⟨n + 1, ?_, hc.1, le_refl _, hc.2, fun j _ hj _ => hj⟩
      simp [rfindFrom, hc.1, hc.2]
    · have heq : rfindFrom sub t lo (n + 1) = rfindFrom sub t lo n := by
        rw [rfindFrom]
        rw [if_neg]
        simp only [Bool.and_eq_true, decide_eq_true_eq]
        exact hc
      have hne : ∀ j, lo ≤ j → j = n + 1 → occursAt sub t j = false := by
        intro j hj hj1
        subst hj1
        rcases Bool.eq_false_or_eq_true (occursAt sub t (n + 1)) with h | h
        · exact absurd ⟨hj, h⟩ hc
        · exact h
      rcases ih with ⟨h1, h2⟩ | ⟨k, hk1, hk2, hk3, hk4, hk5⟩
      · left
        refine ⟨heq ▸ h1, fun j hj hj1 => ?_⟩
        rcases Nat.lt_or_ge j (n + 1) with h | h
        · exact h2 j hj (by omega)
        · exact hne j hj (by omega)
      · right
        refine ⟨k, heq ▸ hk1, hk2, by omega, hk4, fun j hj hj1 hocc => ?_⟩
        rcases Nat.lt_or_ge j (n + 1) with h | h
        · exact hk5 j hj (by omega) hocc
        · have := hne j hj (by omega)
          rw [hocc] at this
          exact absurd this (by simp)

/-- Python rfind characterized: -1 exactly when sub has no occurrence
whose span fits in the window [s, min e (length t)), and otherwise the
right-most such occurrence. -/
theorem pyRfind_spec (sub t : List Char) (s e : Nat) :
    (pyRfind sub t s e = -1 ∧
      ∀ j, s ≤ j → j + sub.length ≤ min e t.length → occursAt sub t j = false)
  ∨ (∃ k : Nat, pyRfind sub t s e = (k : Int) ∧ s ≤ k ∧
      k + sub.length ≤ min e t.length ∧ occursAt sub t k = true ∧
      ∀ j, s ≤ j → j + sub.length ≤ min e t.length → occursAt sub t j = true → j ≤ k) := by
  rw [pyRfind]
  by_cases hL : sub.length ≤ min e t.length
  · rw [if_pos hL]
    rcases rfindFrom_spec sub t s (min e t.length - sub.length) with ⟨h1, h2⟩ | ⟨k, hk1, hk2, hk3, hk4, hk5⟩
    · left
      exact ⟨h1, fun j hj hjw => h2 j hj (by omega)⟩
    · right
      exact ⟨k, hk1, hk2, by omega, hk4, fun j hj hjw hocc => hk5 j hj (by omega) hocc⟩
  · rw [if_neg hL]
    left
    refine ⟨rfl, fun j _ hjw => ?_⟩
    omega

/-- pyRfind never returns anything below -1. -/
theorem pyRfind_ge (sub t : List Char) (s e : Nat) : -1 ≤ pyRfind sub t s e := by
  rcases pyRfind_spec sub t s e with ⟨h, _⟩ | ⟨k, hk, _⟩
  · omega
  · rw [hk]; omega

/-- Invariant of the best_boundary fold of chunk_text over any suffix of
the pattern list: the accumulator is -1 or two past an occurrence of a
sentence pattern inside the window, it never decreases, and it ends at or
above every processed pattern's rfind result. -/
theorem boundary_foldl_spec (t : List Char) (s e : Nat) :
    ∀ (pats : List (List Char)), (∀ b ∈ pats, b.length = 2) →
    pats ⊆ sentencePatterns → ∀ (acc : Int),
    (acc = -1 ∨ ∃ q : Nat, acc = (q : Int) + 2 ∧ s ≤ q ∧ q + 2 ≤ min e t.length ∧
      ∃ b ∈ sentencePatterns, occursAt b t q = true) →
    (pats.foldl (boundaryStep t s e) acc = -1 ∨
      ∃ q : Nat, pats.foldl (boundaryStep t s e) acc = (q : Int) + 2 ∧ s ≤ q ∧
        q + 2 ≤ min e t.length ∧ ∃ b ∈ sentencePatterns, occursAt b t q = true) ∧
    acc ≤ pats.foldl (boundaryStep t s e) acc ∧
    ∀ b ∈ pats, pyRfind b t s e ≤ pats.foldl (boundaryStep t s e) acc := by
  intro pats
  induction pats with
  | nil =>
    intro _ _ acc hacc
    exact ⟨hacc, le_refl _, by simp⟩
  | cons b pats ih =>
    intro hlen hsub acc hacc
    have hblen : b.length = 2 := hlen b (by simp)
    have hbmem : b ∈ sentencePatterns := hsub (by simp)
    have hstep : (boundaryStep t s e acc b = acc) ∨
        (∃ k : Nat, boundaryStep t s e acc b = (k : Int) + 2 ∧ s ≤ k ∧
          k + 2 ≤ min e t.length ∧ occursAt b t k = true) := by
      rw [boundaryStep]
      by_cases hlt : acc < pyRfind b t s e
      · right
        rcases pyRfind_spec b t s e with ⟨h1, _⟩ | ⟨k, hk1, hk2, hk3, hk4, _⟩
        · exfalso
          rcases hacc with h | ⟨q, hq, _⟩ <;> omega
        · refine ⟨k, ?_, hk2, by omega, hk4⟩
          rw [if_pos hlt, hk1, hblen]
          norm_num
      · left
        rw [if_neg hlt]
    have hacc' : (boundaryStep t s e acc b = -1 ∨
        ∃ q : Nat, boundaryStep t s e acc b = (q : Int) + 2 ∧ s ≤ q ∧
          q + 2 ≤ min e t.length ∧ ∃ b' ∈ sentencePatterns, occursAt b' t q = true) := by
      rcases hstep with heq | ⟨k, heq, hk2, hk3, hk4⟩
      · rw [heq]; exact hacc
      · right; exact ⟨k, heq, hk2, hk3, b, hbmem, hk4⟩
    have hmono : acc ≤ boundaryStep t s e acc b := by
      rw [boundaryStep]
      by_cases hlt : acc < pyRfind b t s e
      · rw [if_pos hlt]
        omega
      · rw [if_neg hlt]
    have hb_le : pyRfind b t s e ≤ boundaryStep t s e acc b := by
      rw [boundaryStep]
      by_cases hlt : acc < pyRfind b t s e
      · rw [if_pos hlt]
        omega
      · rw [if_neg hlt]
        omega
    obtain ⟨ih1, ih2, ih3⟩ := ih (fun b' hb' => hlen b' (by simp [hb']))
      (fun b' hb' => hsub (by simp [hb'])) (boundaryStep t s e acc b) hacc'
    refine ⟨by simpa using ih1, ?_, ?_⟩
    · calc acc ≤ boundaryStep t s e acc b := hmono
        _ ≤ _ := by simpa using ih2
    · intro b' hb'
      rcases List.mem_cons.mp hb' with h | h
      · subst h
        calc pyRfind b' t s e ≤ boundaryStep t s e acc b' := hb_le
          _ ≤ _ := by simpa using ih2
      · simpa using ih3 b' h

/-- The right-most-of-any fold of specRightmostBoundary: the result bounds
every pattern's rfind and is -1 or one of them. -/
theorem specRightmost_spec (t : List Char) (s e : Nat) :
    (∀ b ∈ sentencePatterns, pyRfind b t s e ≤ specRightmostBoundary t s e) ∧
    (specRightmostBoundary t s e = -1 ∨
      ∃ b ∈ sentencePatterns, specRightmostBoundary t s e = pyRfind b t s e) := by
  have main : ∀ (pats : List (List Char)) (acc : Int),
      (∀ b ∈ pats, pyRfind b t s e ≤ pats.foldl (fun a b' => max a (pyRfind b' t s e)) acc) ∧
      acc ≤ pats.foldl (fun a b' => max a (pyRfind b' t s e)) acc ∧
      (pats.foldl (fun a b' => max a (pyRfind b' t s e)) acc = acc ∨
        ∃ b ∈ pats, pats.foldl (fun a b' => max a (pyRfind b' t s e)) acc = pyRfind b t s e) := by
    intro pats
    induction pats with
    | nil => exact fun acc => ⟨by simp, le_refl _, Or.inl rfl⟩
    | cons b pats ih =>
      intro acc
      obtain ⟨ih1, ih2, ih3⟩ := ih (max acc (pyRfind b t s e))
      refine ⟨?_, ?_, ?_⟩
      · intro b' hb'
        rcases List.mem_cons.mp hb' with h | h
        · subst h
          calc pyRfind b' t s e ≤ max acc (pyRfind b' t s e) := le_max_right _ _
            _ ≤ _ := by simpa using ih2
        · simpa using ih1 b' h
      · calc acc ≤ max acc (pyRfind b t s e) := le_max_left _ _
          _ ≤ _ := by simpa using ih2
      · rcases ih3 with h | ⟨b', hb'1, hb'2⟩
        · rcases max_cases acc (pyRfind b t s e) with ⟨hm, _⟩ | ⟨hm, _⟩
          · left; simpa [hm] using h
          · right; exact ⟨b, by simp, by simpa [hm] using h⟩
        · right; exact ⟨b', by simp [hb'1], by simpa using hb'2⟩
  obtain ⟨h1, _, h3⟩ := main sentencePatterns (-1)
  exact ⟨h1, by simpa [specRightmostBoundary] using h3⟩

/-- The six boundary patterns all have length two. -/
theorem sentencePatterns_length : ∀ b ∈ sentencePatterns, b.length = 2 := by decide

/-- The sentence-pattern part of the boundary search, characterized. -/
theorem sentenceBoundary_spec (t : List Char) (s e : Nat) :
    (sentenceBoundary t s e = -1 ∨
      ∃ q : Nat, sentenceBoundary t s e = (q : Int) + 2 ∧ s ≤ q ∧
        q + 2 ≤ min e t.length ∧ ∃ b ∈ sentencePatterns, occursAt b t q = true) ∧
    ∀ b ∈ sentencePatterns, pyRfind b t s e ≤ sentenceBoundary t s e := by
  obtain ⟨h1, _, h3⟩ := boundary_foldl_spec t s e sentencePatterns
    sentencePatterns_length (fun _ hb => hb) (-1) (Or.inl rfl)
  exact ⟨h1, h3⟩

/-- When the sentence fold found a boundary, snapEnd returns it. -/
theorem snapEnd_of_sentence (t : List Char) (s e0 q : Nat)
    (hB : sentenceBoundary t s e0 = (q : Int) + 2) : snapEnd t s e0 = q + 2 := by
  have h1 : ¬((q : Int) + 2 = -1) := by omega
  simp only [snapEnd, hB, if_neg h1]
  omega

/-- The snapped end always lies strictly after the cursor and never after
the tentative hard-cut end. -/
theorem snapEnd_bounds (t : List Char) (s e0 : Nat) (h : s < e0) :
    s < snapEnd t s e0 ∧ snapEnd t s e0 ≤ e0 := by
  obtain ⟨hcase, _⟩ := sentenceBoundary_spec t s e0
  rcases hcase with hB | ⟨q, hB, hqs, hqw, _⟩
  · rcases pyRfind_spec ['\n', '\n'] t s e0 with ⟨hp, _⟩ | ⟨k, hk1, hk2, hk3, _, _⟩
    · rcases pyRfind_spec ['\n'] t s e0 with ⟨hn, _⟩ | ⟨k, hk1, hk2, hk3, _, _⟩
      · simp only [snapEnd, hB, hp, hn]
        split_ifs <;> first | (exfalso; assumption) | omega
      · have hlen : k + 1 ≤ min e0 t.length := by simpa using hk3
        simp only [snapEnd, hB, hp, hk1]
        split_ifs <;> first | (exfalso; assumption) | omega
    · have hlen : k + 2 ≤ min e0 t.length := by simpa using hk3
      simp only [snapEnd, hB, hk1]
      split_ifs <;> first | (exfalso; assumption) | omega
  · rw [snapEnd_of_sentence t s e0 q hB]
    omega

/-- Every span recorded by the carving loop starts at or after the call's
cursor, starts inside the text, and ends exactly where the iteration's
boundary search puts the end. -/
theorem chunkLoop_mem (t : List Char) (cs ov : Nat) : ∀ fuel s0,
    ∀ se ∈ chunkLoop t cs ov fuel s0,
    s0 ≤ se.1 ∧ se.1 < t.length ∧
    se.2 = (if se.1 + cs < t.length then snapEnd t se.1 (se.1 + cs) else se.1 + cs) := by
  intro fuel
  induction fuel with
  | zero => intro s0 se h; simp [chunkLoop] at h
  | succ n ih =>
    intro s0 se h
    rw [chunkLoop] at h
    by_cases hs : s0 < t.length
    · rw [if_pos hs] at h
      rcases List.mem_cons.mp h with h | h
      · subst h
        exact ⟨le_refl _, hs, rfl⟩
      · obtain ⟨h1, h2, h3⟩ := ih _ se h
        have : s0 + 1 ≤ max (s0 + 1) ((if s0 + cs < t.length then snapEnd t s0 (s0 + cs) else s0 + cs) - ov) :=
          le_max_left _ _
        exact ⟨by omega, h2, h3⟩
    · rw [if_neg hs] at h
      simp at h

/-- The loop performs at most length t - s0 iterations: the cursor
strictly increases each time. -/
theorem chunkLoop_length_le (t : List Char) (cs ov : Nat) : ∀ fuel s0,
    (chunkLoop t cs ov fuel s0).length ≤ t.length - s0 := by
  intro fuel
  induction fuel with
  | zero => intro s0; simp [chunkLoop]
  | succ n ih =>
    intro s0
    rw [chunkLoop]
    by_cases hs : s0 < t.length
    · rw [if_pos hs]
      have h1 := ih (max (s0 + 1) ((if s0 + cs < t.length then snapEnd t s0 (s0 + cs) else s0 + cs) - ov))
      have h2 : s0 + 1 ≤ max (s0 + 1) ((if s0 + cs < t.length then snapEnd t s0 (s0 + cs) else s0 + cs) - ov) :=
        le_max_left _ _
      simp only [List.length_cons]
      omega
    · rw [if_neg hs]
      simp

/-- Given enough fuel, every index of the remaining text is covered by
some span of the loop. -/
theorem chunkLoop_cover (t : List Char) (cs ov : Nat) (hcs : 0 < cs) : ∀ fuel s0,
    t.length ≤ s0 + fuel → ∀ i, s0 ≤ i → i < t.length →
    ∃ se ∈ chunkLoop t cs ov fuel s0, se.1 ≤ i ∧ i < se.2 := by
  intro fuel
  induction fuel with
  | zero =>
    intro s0 hfuel i hi1 hi2
    omega
  | succ n ih =>
    intro s0 hfuel i hi1 hi2
    have hs : s0 < t.length := by omega
    rw [chunkLoop, if_pos hs]
    set e := (if s0 + cs < t.length then snapEnd t s0 (s0 + cs) else s0 + cs) with he
    have hbounds : s0 < e ∧ e ≤ s0 + cs := by
      rw [he]
      by_cases hw : s0 + cs < t.length
      · rw [if_pos hw]
        exact snapEnd_bounds t s0 (s0 + cs) (by omega)
      · rw [if_neg hw]
        omega
    by_cases hie : i < e
    · exact ⟨(s0, e), List.mem_cons_self _ _, hi1, hie⟩
    · have h1 : max (s0 + 1) (e - ov) ≤ i := by omega
      obtain ⟨se, hmem, hse⟩ := ih (max (s0 + 1) (e - ov)) (by omega) i h1 hi2
      exact ⟨se, List.mem_cons_of_mem _ hmem, hse⟩

/-- The loop's result is empty or begins with the span at the cursor. -/
theorem chunkLoop_head (t : List Char) (cs ov : Nat) (fuel s0 : Nat) :
    chunkLoop t cs ov fuel s0 = [] ∨
    ∃ e rest, chunkLoop t cs ov fuel s0 = (s0, e) :: rest := by
  match fuel with
  | 0 => exact Or.inl rfl
  | n + 1 =>
    rw [chunkLoop]
    by_cases hs : s0 < t.length
    · rw [if_pos hs]
      exact Or.inr ⟨_, _, rfl⟩
    · rw [if_neg hs]
      exact Or.inl rfl

/-- Consecutive spans of the loop overlap or touch: the next span starts
at or before the current span's end. -/
theorem chunkLoop_chain (t : List Char) (cs ov : Nat) (hcs : 0 < cs) : ∀ fuel s0,
    List.Chain' (fun a b => b.1 ≤ a.2) (chunkLoop t cs ov fuel s0) := by
  intro fuel
  induction fuel with
  | zero => intro s0; simp [chunkLoop]
  | succ n ih =>
    intro s0
    rw [chunkLoop]
    by_cases hs : s0 < t.length
    · rw [if_pos hs]
      set e := (if s0 + cs < t.length then snapEnd t s0 (s0 + cs) else s0 + cs) with he
      have hbounds : s0 < e ∧ e ≤ s0 + cs := by
        rw [he]
        by_cases hw : s0 + cs < t.length
        · rw [if_pos hw]
          exact snapEnd_bounds t s0 (s0 + cs) (by omega)
        · rw [if_neg hw]
          omega
      apply List.Chain'.cons'
      · exact ih _
      · intro y hy
        rcases chunkLoop_head t cs ov n (max (s0 + 1) (e - ov)) with h | ⟨e', rest, h⟩
        · rw [h] at hy
          simp at hy
        · rw [h] at hy
          simp at hy
          subst hy
          simp only
          omega
    · rw [if_neg hs]
      simp

/-- Stripping never lengthens a string. -/
theorem pyStrip_length_le (l : List Char) : (pyStrip l).length ≤ l.length := by
  rw [pyStrip]
  calc ((l.dropWhile pyIsSpace).reverse.dropWhile pyIsSpace).reverse.length
      = ((l.dropWhile pyIsSpace).reverse.dropWhile pyIsSpace).length := List.length_reverse _
    _ ≤ (l.dropWhile pyIsSpace).reverse.length := (List.dropWhile_sublist _).length_le
    _ = (l.dropWhile pyIsSpace).length := List.length_reverse _
    _ ≤ l.length := (List.dropWhile_sublist _).length_le

/-- A slice is no longer than its index range. -/
theorem slice_length_le (t : List Char) (s e : Nat) : (slice t s e).length ≤ e - s := by
  rw [slice, List.length_drop, List.length_take]
  omega

/-- A string whose strip is empty is all whitespace. -/
theorem all_space_of_pyStrip_eq_nil (l : List Char) (h : pyStrip l = []) :
    ∀ c ∈ l, pyIsSpace c = true := by
  rw [pyStrip] at h
  have h1 : (l.dropWhile pyIsSpace).reverse.dropWhile pyIsSpace = [] := by
    simpa using congrArg List.reverse h
  have h2 : ∀ c ∈ (l.dropWhile pyIsSpace).reverse, pyIsSpace c = true :=
    List.dropWhile_eq_nil_iff.mp h1
  have h3 : ∀ c ∈ l.dropWhile pyIsSpace, pyIsSpace c = true := by
    intro c hc
    exact h2 c (List.mem_reverse.mpr hc)
  intro c hc
  rcases (List.mem_append.mp (by
      rw [List.takeWhile_append_dropWhile]
      exact hc : c ∈ l.takeWhile pyIsSpace ++ l.dropWhile pyIsSpace)) with h | h
  · exact List.mem_takeWhile_imp h
  · exact h3 c h

/-- An interior character of the index range belongs to the slice. -/
theorem mem_slice_of_lt (t : List Char) (s e i : Nat) (h1 : s ≤ i) (h2 : i < e)
    (h3 : i < t.length) : t[i] ∈ slice t s e := by
  rw [slice]
  have hlen : i - s < ((t.take e).drop s).length := by
    rw [List.length_drop, List.length_take]
    omega
  have heq : ((t.take e).drop s)[i - s] = t[i] := by
    rw [List.getElem_drop, List.getElem_take]
    congr 1
    omega
  rw [← heq]
  exact List.getElem_mem hlen

/-- C2 (amended): for every text and parameters, the carving loop of
chunk_text terminates after at most len(text) iterations — the cursor
advances by at least one each time.  (The spec's bound of
ceil(len / (chunk_size - overlap)) iterations does not hold in general;
see the counterexample theorem.) -/
theorem chunk_iterations_le_length (t : List Char) (cs ov : Nat) :
    (chunkSpans t cs ov).length ≤ t.length := by
  have h := chunkLoop_length_le t cs ov (t.length + 1) 0
  rw [chunkSpans]
  omega

/-- C2 (counterexample): on the 30-character text of ten repetitions of
"a. " with chunk_size 10 and overlap 8 (valid parameters: 8 < 10), the
loop runs 19 iterations, exceeding ceil(30 / (10 - 8)) = 15: boundary
snapping moves end backwards so the cursor can advance by less than
chunk_size - overlap. -/
theorem chunk_iterations_exceed_ceil_bound :
    (8 < 10) ∧
    ("a. a. a. a. a. a. a. a. a. a. ".data.length + (10 - 8) - 1) / (10 - 8) <
      (chunkSpans "a. a. a. a. a. a. a. a. a. a. ".data 10 8).length := by decide

/-- C3 (amended): chunk_text performs no argument validation and never
raises: calling it with chunk_size = 0 returns normally — the whole text
when the text is empty, and the empty list otherwise (every window
[start, start) is empty, so every slice strips to nothing). -/
theorem chunk_text_zero_chunk_size (t : List Char) (ov : Nat) :
    chunk_text t 0 ov = if t.length = 0 then [t] else [] := by
  by_cases h0 : t.length = 0
  · rw [if_pos h0, chunk_text, if_pos (by omega)]
  · rw [if_neg h0, chunk_text, if_neg (by omega)]
    rw [List.filterMap_eq_nil_iff]
    intro se hse
    obtain ⟨-, hlt, he⟩ := chunkLoop_mem t 0 ov (t.length + 1) 0 se hse
    have he' : se.2 = snapEnd t se.1 se.1 := by
      rw [he, if_pos (by omega)]
      norm_num
    have hsnap : snapEnd t se.1 se.1 = se.1 := by
      have hall : ∀ sub : List Char, 0 < sub.length → pyRfind sub t se.1 se.1 = -1 := by
        intro sub hsub
        rcases pyRfind_spec sub t se.1 se.1 with ⟨h1, _⟩ | ⟨k, _, hk2, hk3, _, _⟩
        · exact h1
        · omega
      have hB : sentenceBoundary t se.1 se.1 = -1 := by
        rcases (sentenceBoundary_spec t se.1 se.1).1 with h | ⟨q, _, hq2, hq3, _⟩
        · exact h
        · omega
      rw [snapEnd]
      simp only [hB, hall ['\n', '\n'] (by norm_num), hall ['\n'] (by norm_num)]
      norm_num
    have hslice : slice t se.1 se.2 = [] := by
      have := slice_length_le t se.1 se.2
      rw [he', hsnap] at this ⊢
      exact List.eq_nil_of_length_eq_zero (by omega)
    simp only [hslice]
    rfl

/-- C3 (counterexample): the claim says chunk_size = 0 is rejected with an
InvalidArgument error; the source has no validation at all and the call
returns an ordinary value (the empty list) on a non-empty text. -/
theorem chunk_text_zero_returns_normally : chunk_text "ab".data 0 0 = [] := by decide

/-- C9 (confirmed): every string chunk_text returns is at most chunk_size
characters long: the short branch requires len(text) ≤ chunk_size, and
every loop emission is a stripped slice text[start:end] with
end ≤ start + chunk_size since boundary snapping only moves the cut
earlier. -/
theorem chunk_text_segment_length_le (t : List Char) (cs ov : Nat) (hcs : 0 < cs) :
    ∀ seg ∈ chunk_text t cs ov, seg.length ≤ cs := by
  intro seg hseg
  rw [chunk_text] at hseg
  by_cases hlen : t.length ≤ cs
  · rw [if_pos hlen] at hseg
    simp at hseg
    subst hseg
    exact hlen
  · rw [if_neg hlen] at hseg
    obtain ⟨se, hmem, hf⟩ := List.mem_filterMap.mp hseg
    obtain ⟨-, hlt, he⟩ := chunkLoop_mem t cs ov (t.length + 1) 0 se hmem
    have he2 : se.2 ≤ se.1 + cs := by
      by_cases hw : se.1 + cs < t.length
      · rw [he, if_pos hw]
        exact (snapEnd_bounds t se.1 (se.1 + cs) (by omega)).2
      · rw [he, if_neg hw]
    have hseg' : seg = pyStrip (slice t se.1 se.2) := by
      by_cases hc : pyStrip (slice t se.1 se.2) = []
      · simp only [hc, if_pos rfl] at hf
        cases hf
      · simp only [if_neg hc] at hf
        exact (Option.some_inj.mp hf).symm
    rw [hseg']
    calc (pyStrip (slice t se.1 se.2)).length ≤ (slice t se.1 se.2).length :=
        pyStrip_length_le _
      _ ≤ se.2 - se.1 := slice_length_le _ _ _
      _ ≤ cs := by omega

/-- C9 (witness): on "abcdef" with chunk_size 3, overlap 1 the segment
"abc" is returned and has length at most 3. -/
theorem chunk_text_segment_length_le_witness :
    (0 < 3 ∧ "abc".data ∈ chunk_text "abcdef".data 3 1) ∧ "abc".data.length ≤ 3 :=
  ⟨⟨by decide, by decide⟩,
    chunk_text_segment_length_le "abcdef".data 3 1 (by decide) "abc".data (by decide)⟩

/-- C6 (confirmed): when the text is longer than chunk_size and
0 ≤ overlap < chunk_size, consecutive iteration spans of the carving loop
leave no gap — each span starts at or before the previous span's end —
and every character position of the text lies inside some iteration's
span. -/
theorem chunk_spans_no_gap (t : List Char) (cs ov : Nat) (hlen : cs < t.length)
    (hov : ov < cs) :
    List.Chain' (fun a b => b.1 ≤ a.2) (chunkSpans t cs ov) ∧
    ∀ i < t.length, ∃ se ∈ chunkSpans t cs ov, se.1 ≤ i ∧ i < se.2 := by
  have hcs : 0 < cs := by omega
  constructor
  · rw [chunkSpans]
    exact chunkLoop_chain t cs ov hcs (t.length + 1) 0
  · intro i hi
    rw [chunkSpans]
    exact chunkLoop_cover t cs ov hcs (t.length + 1) 0 (by omega) i (by omega) hi

/-- C6 (witness): on "abcdef" with chunk_size 3, overlap 1 the spans chain
without gaps and cover all six characters. -/
theorem chunk_spans_no_gap_witness :
    (3 < "abcdef".data.length ∧ 1 < 3) ∧
    (List.Chain' (fun a b => b.1 ≤ a.2) (chunkSpans "abcdef".data 3 1) ∧
      ∀ i < "abcdef".data.length,
        ∃ se ∈ chunkSpans "abcdef".data 3 1, se.1 ≤ i ∧ i < se.2) :=
  ⟨⟨by decide, by decide⟩, chunk_spans_no_gap "abcdef".data 3 1 (by decide) (by decide)⟩

/-- C5 (amended): for valid parameters, no returned segment is the empty
string for a non-empty input; and at least one segment is returned
provided the text fits in one chunk or contains at least one
non-whitespace character.  (A text longer than chunk_size consisting
entirely of whitespace yields no segments at all; see the counterexample
theorem.) -/
theorem chunk_text_nonempty_segments (t : List Char) (cs ov : Nat) (hov : ov < cs)
    (hne : t ≠ []) (h : t.length ≤ cs ∨ ∃ c ∈ t, pyIsSpace c = false) :
    (∀ seg ∈ chunk_text t cs ov, seg ≠ []) ∧ chunk_text t cs ov ≠ [] := by
  have hcs : 0 < cs := by omega
  by_cases hlen : t.length ≤ cs
  · rw [chunk_text, if_pos hlen]
    constructor
    · intro seg hseg
      simp at hseg
      subst hseg
      exact hne
    · simp
  · rw [chunk_text, if_neg hlen]
    constructor
    · intro seg hseg
      obtain ⟨se, -, hf⟩ := List.mem_filterMap.mp hseg
      by_cases hc : pyStrip (slice t se.1 se.2) = []
      · simp only [hc, if_pos rfl] at hf
        cases hf
      · simp only [if_neg hc] at hf
        rw [← Option.some_inj.mp hf]
        exact hc
    · rcases h with h | ⟨c, hc, hcspace⟩
      · omega
      · obtain ⟨i, hi, hci⟩ := List.mem_iff_getElem.mp hc
        obtain ⟨se, hmem, hse1, hse2⟩ :=
          chunkLoop_cover t cs ov hcs (t.length + 1) 0 (by omega) i (by omega) hi
        have hcmem : c ∈ slice t se.1 se.2 := by
          rw [← hci]
          exact mem_slice_of_lt t se.1 se.2 i hse1 hse2 hi
        have hstrip : pyStrip (slice t se.1 se.2) ≠ [] := by
          intro hnil
          have := all_space_of_pyStrip_eq_nil _ hnil c hcmem
          rw [this] at hcspace
          cases hcspace
        apply List.ne_nil_of_mem (a := pyStrip (slice t se.1 se.2))
        apply List.mem_filterMap.mpr
        refine ⟨se, by rw [chunkSpans]; exact hmem, ?_⟩
        simp only [if_neg hstrip]

/-- C5 (counterexample): the non-empty all-whitespace text of four
newlines with chunk_size 2, overlap 0 (valid parameters) yields no
segments at all, refuting "every non-empty source text yields at least
one segment". -/
theorem whitespace_text_yields_no_segments :
    "\n\n\n\n".data ≠ [] ∧ 0 < 2 ∧ chunk_text "\n\n\n\n".data 2 0 = [] := by decide

/-- C5 (witness): on the non-empty text "abcdef" (which contains
non-whitespace) with chunk_size 3, overlap 1, all segments are non-empty
and at least one is returned. -/
theorem chunk_text_nonempty_segments_witness :
    (1 < 3 ∧ "abcdef".data ≠ [] ∧
      ("abcdef".data.length ≤ 3 ∨ ∃ c ∈ "abcdef".data, pyIsSpace c = false)) ∧
    ((∀ seg ∈ chunk_text "abcdef".data 3 1, seg ≠ []) ∧
      chunk_text "abcdef".data 3 1 ≠ []) :=
  ⟨⟨by decide, by decide, by decide⟩,
    chunk_text_nonempty_segments "abcdef".data 3 1 (by decide) (by decide) (by decide)⟩

/-- C4 (amended): in every iteration of chunk_text whose window reaches
strictly inside the text and contains at least one of the six
sentence-terminator patterns, the iteration's end is set to q + 2 for
some occurrence q of one of the six patterns satisfying R - 2 ≤ q ≤ R,
where R is the position of the right-most such occurrence (and the
paragraph-break and single-newline fallbacks are not consulted).  The end
can fall short of just past the right-most occurrence — by exactly two —
because the fold compares each candidate's start position against the
incumbent best end position. -/
theorem chunk_boundary_snap (t : List Char) (cs ov : Nat) (se : Nat × Nat)
    (hmem : se ∈ chunkSpans t cs ov) (hwin : se.1 + cs < t.length)
    (hR : specRightmostBoundary t se.1 (se.1 + cs) ≠ -1) :
    ∃ q : Nat, se.2 = q + 2 ∧ (∃ b ∈ sentencePatterns, occursAt b t q = true) ∧
      specRightmostBoundary t se.1 (se.1 + cs) - 2 ≤ (q : Int) ∧
      (q : Int) ≤ specRightmostBoundary t se.1 (se.1 + cs) := by
  obtain ⟨-, -, he⟩ := chunkLoop_mem t cs ov (t.length + 1) 0 se hmem
  rw [if_pos hwin] at he
  obtain ⟨hble, hRcase⟩ := specRightmost_spec t se.1 (se.1 + cs)
  rcases hRcase with h | ⟨bR, hbRmem, hbR⟩
  · exact absurd h hR
  · rcases pyRfind_spec bR t se.1 (se.1 + cs) with ⟨h1, _⟩ | ⟨kR, hkR1, hkR2, hkR3, hkR4, _⟩
    · rw [h1] at hbR
      exact absurd hbR hR
    · obtain ⟨hBcase, hBge⟩ := sentenceBoundary_spec t se.1 (se.1 + cs)
      rcases hBcase with hB | ⟨q, hB, hqs, hqw, b', hb'mem, hb'occ⟩
      · have := hBge bR hbRmem
        rw [hB, hkR1] at this
        omega
      · refine ⟨q, by rw [he, snapEnd_of_sentence t se.1 (se.1 + cs) q hB], ⟨b', hb'mem, hb'occ⟩, ?_, ?_⟩
        · have h1 := hBge bR hbRmem
          rw [hB, hkR1] at h1
          rw [hbR, hkR1]
          omega
        · have hb'len : b'.length = 2 := sentencePatterns_length b' hb'mem
          rcases pyRfind_spec b' t se.1 (se.1 + cs) with ⟨-, h1⟩ | ⟨k', hk'1, _, _, _, hmax⟩
          · have := h1 q hqs (by omega)
            rw [hb'occ] at this
            cases this
          · have hqk' : q ≤ k' := hmax q hqs (by omega) hb'occ
            have hk'R : pyRfind b' t se.1 (se.1 + cs) ≤ specRightmostBoundary t se.1 (se.1 + cs) :=
              hble b' hb'mem
            rw [hk'1] at hk'R
            omega

/-- C4 (counterexample): on the text "a. ! bcdexyzzz" with chunk_size 10
(window [0, 10) strictly inside the 14-character text) the right-most
sentence pattern occurrence is "! " at position 3, so the claim requires
the first iteration to end at 5; the code ends it at 3, because ". " at
position 1 set the incumbent best to 3 and the fold compares the start 3
of "! " against it without adding the pattern length. -/
theorem boundary_snap_not_rightmost :
    (chunkSpans "a. ! bcdexyzzz".data 10 0).head? = some (0, 3) ∧
    specRightmostBoundary "a. ! bcdexyzzz".data 0 10 = 3 ∧
    occursAt ['!', ' '] "a. ! bcdexyzzz".data 3 = true ∧
    0 + 10 < "a. ! bcdexyzzz".data.length ∧ (3 : Nat) ≠ 3 + 2 := by decide

/-- C4 (witness): the first span of the counterexample text instantiates
the amended theorem with q = 1 (the ". " occurrence), R = 3. -/
theorem chunk_boundary_snap_witness :
    ((0, 3) ∈ chunkSpans "a. ! bcdexyzzz".data 10 0 ∧
      (0, 3).1 + 10 < "a. ! bcdexyzzz".data.length ∧
      specRightmostBoundary "a. ! bcdexyzzz".data (0, 3).1 ((0, 3).1 + 10) ≠ -1) ∧
    (∃ q : Nat, (0, 3).2 = q + 2 ∧
      (∃ b ∈ sentencePatterns, occursAt b "a. ! bcdexyzzz".data q = true) ∧
      specRightmostBoundary "a. ! bcdexyzzz".data (0, 3).1 ((0, 3).1 + 10) - 2 ≤ (q : Int) ∧
      (q : Int) ≤ specRightmostBoundary "a. ! bcdexyzzz".data (0, 3).1 ((0, 3).1 + 10)) :=
  ⟨⟨by decide, by decide, by decide⟩,
    chunk_boundary_snap "a. ! bcdexyzzz".data 10 0 (0, 3) (by decide) (by decide) (by decide)⟩

/-- A successful lookup's element is in the list. -/
theorem mem_of_getElem?_eq_some (l : List Char) (i : Nat) (a : Char)
    (h : l[i]? = some a) : a ∈ l := by
  have h2 : i < l.length := by
    by_contra h3
    rw [List.getElem?_eq_none (by omega)] at h
    cases h
  rw [List.getElem?_eq_getElem h2] at h
  rw [← Option.some_inj.mp h]
  exact List.getElem_mem h2

/-- A text with no opening bracket can never match speaker_pattern: the
mandatory literal bracket of the regex fails at every candidate split. -/
theorem matchSpeakerAt_none_of_no_bracket (t : List Char) (h : '[' ∉ t) (i : Nat) :
    matchSpeakerAt t i = none := by
  rw [matchSpeakerAt]
  rw [List.findSome?_eq_none]
  intro p1 _
  rw [List.findSome?_eq_none]
  intro g1e _
  rw [List.findSome?_eq_none]
  intro p3 _
  rw [List.findSome?_eq_none]
  intro p4 _
  have hnb : ¬(t[p4]? = some '[') := by
    intro heq
    exact h (mem_of_getElem?_eq_some t p4 '[' heq)
  simp [hnb]

/-- If no position matches, the findall scan returns nothing. -/
theorem findAllSpeaker_eq_nil (t : List Char)
    (h : ∀ i, matchSpeakerAt t i = none) : ∀ fuel i, findAllSpeaker t fuel i = [] := by
  intro fuel
  induction fuel with
  | zero => intro i; rfl
  | succ n ih =>
    intro i
    rw [findAllSpeaker]
    by_cases hi : i ≤ t.length
    · rw [if_pos hi]
      simp only [h i]
      exact ih (i + 1)
    · rw [if_neg hi]

/-- findall finds nothing in a text without an opening bracket. -/
theorem findall_nil_of_no_bracket (t : List Char) (h : '[' ∉ t) : findall t = [] :=
  findAllSpeaker_eq_nil t (matchSpeakerAt_none_of_no_bracket t h) _ _

/-- C1 (counterexample): on the spec's example passage — which has no
bracketed timestamp — speaker_pattern cannot match (its bracket literal
finds no bracket in the text), so extraction returns no Verbatim at all
rather than the claimed single Jane Verbatim. -/
theorem jane_without_bracket_yields_nothing :
    extract_verbatims [⟨janeNoBracketText, 1⟩] 10 100 true none = [] := by
  have hnb : '[' ∉ janeNoBracketText := by decide
  have hfind : findall janeNoBracketText = [] := findall_nil_of_no_bracket _ hnb
  unfold extract_verbatims allVerbatims extractFromDocument
  simp only [List.flatMap_cons, List.flatMap_nil, List.append_nil]
  rw [hfind]
  rfl

/-- Shared evaluation of the extractor on the bracketed Jane passage: one
match, which passes every filter and produces the Jane Verbatim carrying
the passage score. -/
theorem extract_janeText (s : ℚ) :
    extract_verbatims [⟨janeText, s⟩] 10 100 true none = [janeVerbatim s] := by
  have hfind : findall janeText = [⟨0, 20, 21, 26, 29, 71⟩] := by decide
  have hsi : parseSpeakerInfo (pyStrip (slice janeText 0 20)) =
      ⟨"Jane".data, "F, 25-34".data, "NYC".data, "Jane, F, 25-34, NYC".data⟩ := by decide
  have hmod : isModerator "Jane".data = false := by decide
  have hclean : cleanQuote "I really love this product a lot actually.".data =
      "I really love this product a lot actually".data := by decide
  have hlen : ("I really love this product a lot actually".data).length = 41 := by decide
  have hquote : pyStrip (slice janeText 29 71) =
      "I really love this product a lot actually.".data := by decide
  have hts : pyStrip (slice janeText 21 26) = "00:01".data := by decide
  have hwc : (pySplitWs "I really love this product a lot actually".data).length = 8 := by
    decide
  have hproc : processMatch janeText s 10 100 true none ⟨0, 20, 21, 26, 29, 71⟩ =
      some (janeVerbatim s) := by
    unfold processMatch
    simp only [hsi, hmod, hquote, hclean, hts, hwc, hlen, janeVerbatim]
    norm_num
  unfold extract_verbatims allVerbatims extractFromDocument
  simp only [List.flatMap_cons, List.flatMap_nil, List.append_nil]
  rw [hfind]
  simp only [List.filterMap_cons, hproc, List.filterMap_nil]
  rfl

/-- C1 (amended): the spec's example passage only matches once it carries
the bracketed timestamp that speaker_pattern requires; on the amended
passage extraction yields exactly one Verbatim, whose speaker is Jane /
F, 25-34 / NYC and whose cleaned quote keeps the word "really" and loses
only the trailing period, for every passage score s. -/
theorem jane_with_bracket_yields_one (s : ℚ) :
    extract_verbatims [⟨janeText, s⟩] 10 100 true none = [janeVerbatim s] ∧
    (janeVerbatim s).speaker.name = "Jane".data ∧
    (janeVerbatim s).speaker.demographics = "F, 25-34".data ∧
    (janeVerbatim s).speaker.location = "NYC".data ∧
    (janeVerbatim s).cleaned_quote = "I really love this product a lot actually".data ∧
    (janeVerbatim s).relevance_score = s :=
  ⟨extract_janeText s, rfl, rfl, rfl, rfl, rfl⟩

/-- Inserting into a sorted-so-far list commutes with filtering on a score
value: every element the insertion skips over has a strictly larger
score, hence a different one. -/
theorem filter_orderedInsert_score (c : ℚ) (a : Verbatim) (l : List Verbatim) :
    (List.orderedInsert scoreGE a l).filter (scoreIs c) =
    if scoreIs c a = true then a :: l.filter (scoreIs c)
    else l.filter (scoreIs c) := by
  induction l with
  | nil =>
    rw [List.orderedInsert, List.filter_cons]
  | cons b l ih =>
    rw [List.orderedInsert]
    by_cases hr : scoreGE a b
    · rw [if_pos hr]
      by_cases hpa : scoreIs c a = true
      · rw [if_pos hpa, List.filter_cons, if_pos hpa]
      · rw [if_neg hpa, List.filter_cons, if_neg hpa]
    · rw [if_neg hr]
      by_cases hpa : scoreIs c a = true
      · have hpb : ¬(scoreIs c b = true) := by
          simp only [scoreIs, decide_eq_true_eq] at hpa ⊢
          rw [scoreGE] at hr
          intro hb
          exact hr (le_of_eq (by rw [hpa, hb]))
        rw [if_pos hpa, List.filter_cons, if_neg hpb, List.filter_cons, if_neg hpb,
          ih, if_pos hpa]
      · rw [if_neg hpa]
        by_cases hpb : scoreIs c b = true
        · rw [List.filter_cons, if_pos hpb, List.filter_cons, if_pos hpb, ih, if_neg hpa]
        · rw [List.filter_cons, if_neg hpb, List.filter_cons, if_neg hpb, ih, if_neg hpa]

/-- The stable insertion sort preserves, for every score value, the exact
subsequence of elements carrying that score. -/
theorem filter_insertionSort_score (c : ℚ) (l : List Verbatim) :
    (List.insertionSort scoreGE l).filter (scoreIs c) = l.filter (scoreIs c) := by
  induction l with
  | nil => rfl
  | cons a l ih =>
    rw [List.insertionSort, filter_orderedInsert_score]
    by_cases hpa : scoreIs c a = true
    · rw [if_pos hpa, ih, List.filter_cons, if_pos hpa]
    · rw [if_neg hpa, ih, List.filter_cons, if_neg hpa]

/-- C7 (confirmed): extract_verbatims returns its verbatims sorted in
descending relevance order, and the sort is stable: for every score
value, the subsequence of verbatims carrying that score equals the
passage-then-discovery-ordered subsequence of the unsorted extraction. -/
theorem extract_verbatims_sorted_and_stable (docs : List Doc) (minLen maxLen : Nat)
    (excl : Bool) (filt : Option (List Char)) :
    List.Sorted scoreGE (extract_verbatims docs minLen maxLen excl filt) ∧
    ∀ c : ℚ,
      (extract_verbatims docs minLen maxLen excl filt).filter (scoreIs c) =
      (allVerbatims docs minLen maxLen excl filt).filter (scoreIs c) :=
  ⟨List.sorted_insertionSort scoreGE _, fun c => filter_insertionSort_score c _⟩

set_option maxHeartbeats 3200000 in
/-- What a successful pass through the per-match loop body guarantees
about the produced Verbatim. -/
theorem processMatch_some (t : List Char) (score : ℚ) (minLen maxLen : Nat)
    (excl : Bool) (filt : Option (List Char)) (m : SpeakerMatch) (v : Verbatim)
    (h : processMatch t score minLen maxLen excl filt m = some v) :
    v.cleaned_quote = cleanQuote (pyStrip (slice t m.g3s m.g3e)) ∧
    v.word_count = (pySplitWs v.cleaned_quote).length ∧
    minLen ≤ v.cleaned_quote.length ∧ v.cleaned_quote.length ≤ maxLen ∧
    v.speaker = parseSpeakerInfo (pyStrip (slice t m.g1s m.g1e)) ∧
    (excl = true → isModerator v.speaker.name = false) := by
  have main : ∀ cond3 : Bool,
      (if excl && isModerator (parseSpeakerInfo (pyStrip (slice t m.g1s m.g1e))).name
       then none
       else
         if (cleanQuote (pyStrip (slice t m.g3s m.g3e))).length < minLen ||
             maxLen < (cleanQuote (pyStrip (slice t m.g3s m.g3e))).length then none
         else
           if cond3 then none
           else some ⟨pyStrip (slice t m.g3s m.g3e),
             parseSpeakerInfo (pyStrip (slice t m.g1s m.g1e)), score, t,
             pyStrip (slice t m.g2s m.g2e), cleanQuote (pyStrip (slice t m.g3s m.g3e)),
             (pySplitWs (cleanQuote (pyStrip (slice t m.g3s m.g3e)))).length⟩) = some v →
      v.cleaned_quote = cleanQuote (pyStrip (slice t m.g3s m.g3e)) ∧
      v.word_count = (pySplitWs v.cleaned_quote).length ∧
      minLen ≤ v.cleaned_quote.length ∧ v.cleaned_quote.length ≤ maxLen ∧
      v.speaker = parseSpeakerInfo (pyStrip (slice t m.g1s m.g1e)) ∧
      (excl = true → isModerator v.speaker.name = false) := by
    intro cond3 h
    by_cases hmod : (excl && isModerator
        (parseSpeakerInfo (pyStrip (slice t m.g1s m.g1e))).name) = true
    · rw [if_pos hmod] at h
      cases h
    · rw [if_neg hmod] at h
      by_cases hlen : ((cleanQuote (pyStrip (slice t m.g3s m.g3e))).length < minLen ||
          maxLen < (cleanQuote (pyStrip (slice t m.g3s m.g3e))).length) = true
      · rw [if_pos hlen] at h
        cases h
      · rw [if_neg hlen] at h
        by_cases hc3 : cond3 = true
        · rw [if_pos hc3] at h
          cases h
        · rw [if_neg hc3] at h
          have hv := (Option.some_inj.mp h).symm
          subst hv
          simp only [Bool.or_eq_true, not_or, Bool.not_eq_true,
            decide_eq_true_eq, Nat.not_lt] at hlen
          dsimp only
          refine ⟨rfl, rfl, by omega, by omega, rfl, ?_⟩
          intro hexcl
          subst hexcl
          simpa using hmod
  unfold processMatch at h
  cases filt with
  | none =>
    dsimp only at h
    exact main false h
  | some f =>
    dsimp only at h
    exact main (!decide (f = []) && !matchesParticipantFilter
      (parseSpeakerInfo (pyStrip (slice t m.g1s m.g1e))) f) h

/-- C8 (confirmed): every returned Verbatim has word_count equal to the
whitespace token count of its cleaned quote, and the cleaned quote's
character length lies within [min_length, max_length]. -/
theorem extract_verbatims_invariant (docs : List Doc) (minLen maxLen : Nat)
    (excl : Bool) (filt : Option (List Char)) (v : Verbatim)
    (hv : v ∈ extract_verbatims docs minLen maxLen excl filt) :
    v.word_count = (pySplitWs v.cleaned_quote).length ∧
    minLen ≤ v.cleaned_quote.length ∧ v.cleaned_quote.length ≤ maxLen := by
  rw [extract_verbatims] at hv
  have hv2 : v ∈ allVerbatims docs minLen maxLen excl filt :=
    (List.perm_insertionSort scoreGE _).mem_iff.mp hv
  rw [allVerbatims] at hv2
  obtain ⟨d, -, hvd⟩ := List.mem_flatMap.mp hv2
  rw [extractFromDocument] at hvd
  obtain ⟨m, -, hm⟩ := List.mem_filterMap.mp hvd
  obtain ⟨-, h2, h3, h4, -, -⟩ := processMatch_some _ _ _ _ _ _ _ _ hm
  exact ⟨h2, h3, h4⟩

/-- C8 (witness): the Jane Verbatim at score 1 is returned for
min_length 10, max_length 100 and satisfies both invariants. -/
theorem extract_verbatims_invariant_witness :
    (janeVerbatim 1 ∈ extract_verbatims [⟨janeText, 1⟩] 10 100 true none) ∧
    ((janeVerbatim 1).word_count = (pySplitWs (janeVerbatim 1).cleaned_quote).length ∧
      10 ≤ (janeVerbatim 1).cleaned_quote.length ∧
      (janeVerbatim 1).cleaned_quote.length ≤ 100) := by
  have hmem : janeVerbatim 1 ∈ extract_verbatims [⟨janeText, 1⟩] 10 100 true none := by
    rw [extract_janeText]
    exact List.mem_singleton_self _
  exact ⟨hmem, extract_verbatims_invariant [⟨janeText, 1⟩] 10 100 true none
    (janeVerbatim 1) hmem⟩

/-- C10 (confirmed): _is_moderator holds exactly when "mod" is a
case-insensitive substring of the name (the four configured aliases all
reduce to this single test), and consequently extraction with
exclude_moderator never emits a Verbatim whose parsed speaker name
contains "mod" in any letter case. -/
theorem is_moderator_iff_mod_substring :
    (∀ name : List Char, isModerator name = true ↔ "mod".data <:+: pyLower name) ∧
    (∀ (docs : List Doc) (minLen maxLen : Nat) (filt : Option (List Char)) (v : Verbatim),
      v ∈ extract_verbatims docs minLen maxLen true filt →
      ¬("mod".data <:+: pyLower v.speaker.name)) := by
  have hiff : ∀ name : List Char, isModerator name = true ↔ "mod".data <:+: pyLower name := by
    intro name
    have h1 : pyLower "Moderator".data = "moderator".data := by decide
    have h2 : pyLower "MODERATOR".data = "moderator".data := by decide
    have h3 : pyLower "Mod".data = "mod".data := by decide
    have h4 : pyLower "MOD".data = "mod".data := by decide
    have h5 : "mod".data <:+: "moderator".data := by decide
    rw [isModerator, moderatorPatterns]
    simp only [List.any_cons, List.any_nil, Bool.or_eq_true, Bool.or_eq_false_iff,
      pyContains, h1, h2, h3, h4, decide_eq_true_eq]
    constructor
    · rintro (h | h | h | h | h)
      · exact h5.trans h
      · exact h5.trans h
      · exact h
      · exact h
      · cases h
    · intro h
      exact Or.inr (Or.inr (Or.inl h))
  refine ⟨hiff, fun docs minLen maxLen filt v hv => ?_⟩
  rw [extract_verbatims] at hv
  have hv2 : v ∈ allVerbatims docs minLen maxLen true filt :=
    (List.perm_insertionSort scoreGE _).mem_iff.mp hv
  rw [allVerbatims] at hv2
  obtain ⟨d, -, hvd⟩ := List.mem_flatMap.mp hv2
  rw [extractFromDocument] at hvd
  obtain ⟨m, -, hm⟩ := List.mem_filterMap.mp hvd
  obtain ⟨-, -, -, -, -, hmod⟩ := processMatch_some _ _ _ _ _ _ _ _ hm
  intro hsub
  have := (hiff v.speaker.name).mpr hsub
  rw [hmod rfl] at this
  cases this

/-- C10 (witness): on the Jane passage extraction with exclude_moderator
emits the Jane Verbatim, whose speaker name does not contain "mod". -/
theorem is_moderator_iff_mod_substring_witness :
    (janeVerbatim 1 ∈ extract_verbatims [⟨janeText, 1⟩] 10 100 true none) ∧
    ¬("mod".data <:+: pyLower (janeVerbatim 1).speaker.name) := by
  have hmem : janeVerbatim 1 ∈ extract_verbatims [⟨janeText, 1⟩] 10 100 true none := by
    rw [extract_janeText]
    exact List.mem_singleton_self _
  exact ⟨hmem, is_moderator_iff_mod_substring.2 [⟨janeText, 1⟩] 10 100 none
    (janeVerbatim 1) hmem⟩

end RAG
